import Mathlib

/-!
Verification development for the ble-chirp broadcast protocol engine
(src/main.rs, src/crypto.rs).  Bytes are modelled as `Nat` (values < 256
where the Rust type is `u8`), byte buffers as `List Nat`, `Option` models
fallible operations, and the receive loop's mutable state is passed
explicitly through a step function.
-/

set_option maxRecDepth 16000

namespace BleChirp

/-- `COMPANY_ID` constant from main.rs (manufacturer data key). -/
def COMPANY_ID : Nat := 0xFFFF

/-- `VER` protocol version constant from main.rs. -/
def VER : Nat := 1

/-- `MAX_PAYLOAD` constant from main.rs. -/
def MAX_PAYLOAD : Nat := 20

/-- The `Frame` struct from main.rs.  `msg_id` is a `[u8; 4]` in Rust,
modelled as a list (theorems carry `length = 4` where it matters). -/
structure Frame where
  topic : Nat
  ttl : Nat
  msg_id : List Nat
  seq : Nat
  tot : Nat
  payload : List Nat
deriving DecidableEq, Repr

/-- Well-formedness corresponding to the Rust field types (`u8`, `[u8;4]`,
`Vec<u8>`). -/
def Frame.wf (f : Frame) : Prop :=
  f.topic < 256 ∧ f.ttl < 256 ∧ f.msg_id.length = 4 ∧ (∀ x ∈ f.msg_id, x < 256) ∧
    f.seq < 256 ∧ f.tot < 256 ∧ ∀ x ∈ f.payload, x < 256

instance (f : Frame) : Decidable f.wf := by unfold Frame.wf; infer_instance

/-- `pack_frame` from main.rs: little-endian company id, version, topic, ttl,
msg_id, seq, tot, then the payload verbatim. -/
def pack_frame (f : Frame) : List Nat :=
  [COMPANY_ID % 256, COMPANY_ID / 256, VER, f.topic, f.ttl] ++ f.msg_id
    ++ [f.seq, f.tot] ++ f.payload

/-- The body of `unpack_frame` after the start offset `i` has been fixed:
length check, version check, then field extraction (main.rs lines 118-149). -/
def parseAt (md : List Nat) (i : Nat) : Option Frame :=
  if md.length < i + 1 + 1 + 1 + 4 + 1 + 1 then none
  else if md.getD i 0 ≠ VER then none
  else some
    { topic := md.getD (i + 1) 0
      ttl := md.getD (i + 2) 0
      msg_id := (md.drop (i + 3)).take 4
      seq := md.getD (i + 7) 0
      tot := md.getD (i + 8) 0
      payload := md.drop (i + 9) }

/-- `unpack_frame` from main.rs: if the buffer is at least 2 bytes long and
starts with the little-endian `COMPANY_ID` tag, parsing starts at offset 2,
otherwise at offset 0. -/
def unpack_frame (md : List Nat) : Option Frame :=
  parseAt md
    (if 2 ≤ md.length ∧ md.getD 0 0 + 256 * md.getD 1 0 = COMPANY_ID then 2 else 0)

/-- `chunk_message` from main.rs.  `tot` is computed as
`((bytes.len() + MAX_PAYLOAD - 1) / MAX_PAYLOAD).max(1) as u8`; the `as u8`
cast is the `% 256`.  Each chunk is `bytes[s..e]` with
`e = (s + MAX_PAYLOAD).min(len)`, i.e. `(drop s).take MAX_PAYLOAD`. -/
def chunk_message (bytes : List Nat) : List (Nat × Nat × List Nat) :=
  let tot := (max ((bytes.length + MAX_PAYLOAD - 1) / MAX_PAYLOAD) 1) % 256
  (List.range tot).map (fun i => (i, tot, (bytes.drop (i * MAX_PAYLOAD)).take MAX_PAYLOAD))

/-! ## Crypto envelope (src/crypto.rs)

crypto.rs delegates to the `chacha20poly1305` crate, which implements the
RFC 8439 ChaCha20-Poly1305 AEAD; that algorithm is embedded here so that
`encrypt`/`decrypt` below mirror crypto.rs exactly (nonce construction in
this repository's code, cipher per the RFC). -/

/-- 2^32, the modulus of the 32-bit words ChaCha20 works on. -/
def M32 : Nat := 4294967296

/-- 32-bit wrapping addition. -/
def add32 (a b : Nat) : Nat := (a + b) % M32

/-- 32-bit left rotation (inputs < 2^32). -/
def rotl32 (x n : Nat) : Nat := ((x <<< n) % M32) ||| (x >>> (32 - n))

/-- The ChaCha20 quarter round acting on positions `ia ib ic idx` of the
16-word state. -/
def quarterRound (st : List Nat) (ia ib ic idx : Nat) : List Nat :=
  let a := st.getD ia 0
  let b := st.getD ib 0
  let c := st.getD ic 0
  let d := st.getD idx 0
  let a := add32 a b
  let d := rotl32 (d ^^^ a) 16
  let c := add32 c d
  let b := rotl32 (b ^^^ c) 12
  let a := add32 a b
  let d := rotl32 (d ^^^ a) 8
  let c := add32 c d
  let b := rotl32 (b ^^^ c) 7
  (((st.set ia a).set ib b).set ic c).set idx d

/-- One ChaCha20 double round: four column rounds then four diagonal rounds. -/
def doubleRound (st : List Nat) : List Nat :=
  let st := quarterRound st 0 4 8 12
  let st := quarterRound st 1 5 9 13
  let st := quarterRound st 2 6 10 14
  let st := quarterRound st 3 7 11 15
  let st := quarterRound st 0 5 10 15
  let st := quarterRound st 1 6 11 12
  let st := quarterRound st 2 7 8 13
  let st := quarterRound st 3 4 9 14
  st

/-- Little-endian 32-bit words of a byte string (groups of 4). -/
def leWords : List Nat → List Nat
  | b0 :: b1 :: b2 :: b3 :: rest =>
      (b0 + (b1 <<< 8) + (b2 <<< 16) + (b3 <<< 24)) :: leWords rest
  | _ => []

/-- The four ChaCha20 constant words ("expand 32-byte k"). -/
def chachaConsts : List Nat := [0x61707865, 0x3320646e, 0x79622d32, 0x6b206574]

/-- Initial ChaCha20 state: constants, key words, block counter, nonce words. -/
def chachaInit (key nonce : List Nat) (ctr : Nat) : List Nat :=
  chachaConsts ++ leWords key ++ [ctr % M32] ++ leWords nonce

/-- Little-endian bytes of one 32-bit word. -/
def wordBytes (w : Nat) : List Nat :=
  [w % 256, (w >>> 8) % 256, (w >>> 16) % 256, (w >>> 24) % 256]

/-- The ChaCha20 block function: 10 double rounds, add the initial state,
serialize little-endian. -/
def chachaBlock (key nonce : List Nat) (ctr : Nat) : List Nat :=
  let st0 := chachaInit key nonce ctr
  ((List.zipWith add32 (doubleRound^[10] st0) st0).map wordBytes).flatten

/-- Byte `i` of the ChaCha20 keystream with initial block counter 1
(counter 0 is reserved for the Poly1305 one-time key). -/
def keystreamByte (key nonce : List Nat) (i : Nat) : Nat :=
  (chachaBlock key nonce (1 + i / 64)).getD (i % 64) 0

/-- First `n` bytes of the ChaCha20 keystream used to mask the payload. -/
def keystream (key nonce : List Nat) (n : Nat) : List Nat :=
  (List.range n).map (keystreamByte key nonce)

/-- Interpret a byte string as a little-endian natural number. -/
def leNum (bs : List Nat) : Nat := bs.foldr (fun b acc => b + (acc <<< 8)) 0

/-- The `n` low-order bytes of `x`, little-endian. -/
def toLEBytes (n x : Nat) : List Nat :=
  (List.range n).map (fun i => (x >>> (8 * i)) % 256)

/-- Split a byte string into successive chunks of at most 16 bytes. -/
def chunks16 (msg : List Nat) : List (List Nat) :=
  if h : msg = [] then [] else msg.take 16 :: chunks16 (msg.drop 16)
termination_by msg.length
decreasing_by
  simp only [List.length_drop]
  have hp : 0 < msg.length := List.length_pos.mpr h
  omega

/-- The Poly1305 prime 2^130 - 5. -/
def P1305 : Nat := 1361129467683753853853498429727072845819

/-- Poly1305 MAC: clamp `r` from the first half of the one-time key, absorb
16-byte chunks (each with a high `0x01` byte appended), add `s`, serialize
the low 128 bits little-endian. -/
def poly1305 (msg otk : List Nat) : List Nat :=
  let r := leNum (otk.take 16) &&& 0x0ffffffc0ffffffc0ffffffc0fffffff
  let s := leNum ((otk.drop 16).take 16)
  let acc := (chunks16 msg).foldl (fun acc c => ((acc + leNum (c ++ [1])) * r) % P1305) 0
  toLEBytes 16 ((acc + s) % 340282366920938463463374607431768211456)

/-- Zero padding bringing a buffer up to a multiple of 16 bytes. -/
def pad16 (l : List Nat) : List Nat := List.replicate ((16 - l.length % 16) % 16) 0

/-- The authenticated data fed to Poly1305 for AEAD with empty additional
data (as the crate's plain `encrypt`/`decrypt` calls use): ciphertext,
padding, 8-byte LE aad length (0), 8-byte LE ciphertext length. -/
def macData (ct : List Nat) : List Nat :=
  ct ++ pad16 ct ++ toLEBytes 8 0 ++ toLEBytes 8 ct.length

/-- The Poly1305 one-time key: first 32 bytes of ChaCha20 block 0. -/
def otkOf (key nonce : List Nat) : List Nat := (chachaBlock key nonce 0).take 32

/-- RFC 8439 AEAD encryption: XOR the plaintext with the keystream, append
the 16-byte Poly1305 tag. -/
def aeadEncrypt (key nonce pt : List Nat) : List Nat :=
  let ct := List.zipWith (fun a b => a ^^^ b) pt (keystream key nonce pt.length)
  ct ++ poly1305 (macData ct) (otkOf key nonce)

/-- RFC 8439 AEAD decryption: split off the trailing 16-byte tag, recompute
it over the ciphertext, reject on mismatch, otherwise unmask. -/
def aeadDecrypt (key nonce ctt : List Nat) : Option (List Nat) :=
  if ctt.length < 16 then none
  else
    let ct := ctt.take (ctt.length - 16)
    let tag := ctt.drop (ctt.length - 16)
    if poly1305 (macData ct) (otkOf key nonce) = tag then
      some (List.zipWith (fun a b => a ^^^ b) ct (keystream key nonce ct.length))
    else none

/-- Nonce construction from crypto.rs: a 12-byte zero array whose first 4
bytes are overwritten with `msg_id` (a `[u8;4]`, hence the `take 4`) and
whose 5th byte is set to `seq`. -/
def nonceOf (msg_id : List Nat) (seq : Nat) : List Nat :=
  (msg_id.take 4 ++ (List.replicate 12 0).drop 4).set 4 seq

/-- `encrypt` from crypto.rs. -/
def encrypt (key msg_id : List Nat) (seq : Nat) (payload : List Nat) : List Nat :=
  aeadEncrypt key (nonceOf msg_id seq) payload

/-- `decrypt` from crypto.rs. -/
def decrypt (key msg_id : List Nat) (seq : Nat) (payload : List Nat) : Option (List Nat) :=
  aeadDecrypt key (nonceOf msg_id seq) payload

/-! ## Receive loop state machine (rx_loop in main.rs)

`HashMap` is modelled as an association list with distinct keys (all
operations rx_loop uses — entry/or_insert, insert, len, get, remove — are
order-independent); `VecDeque` as a list whose head is the oldest element
(`push_back` appends, `pop_front` drops the head). -/

/-- Association-list lookup (HashMap `get`). -/
def alookup {α β : Type} [DecidableEq α] : List (α × β) → α → Option β
  | [], _ => none
  | (k, v) :: rest, k' => if k = k' then some v else alookup rest k'

/-- Association-list insert, last write wins (HashMap `insert`). -/
def ainsert {α β : Type} [DecidableEq α] : List (α × β) → α → β → List (α × β)
  | [], k, v => [(k, v)]
  | (k', v') :: rest, k, v =>
      if k' = k then (k, v) :: rest else (k', v') :: ainsert rest k v

/-- Association-list removal (HashMap `remove`). -/
def aremove {α β : Type} [DecidableEq α] : List (α × β) → α → List (α × β)
  | [], _ => []
  | (k', v') :: rest, k => if k' = k then rest else (k', v') :: aremove rest k

/-- One reassembly entry: `(tot, seq ↦ payload, topic)` as in rx_loop's
`HashMap<[u8;4], (u8, HashMap<u8, Vec<u8>>, u8)>`. -/
abbrev ReasmEntry : Type := Nat × List (Nat × List Nat) × Nat

/-- The receive loop's mutable state: the `seen` dedup deque of
`(msg_id, seq)` pairs and the `reasm` table keyed by `msg_id`. -/
structure RxState where
  seen : List (List Nat × Nat)
  reasm : List (List Nat × ReasmEntry)
deriving DecidableEq, Repr

/-- The empty initial state of rx_loop. -/
def initState : RxState := ⟨[], []⟩

/-- The topic filter at the top of rx_loop's frame handling. -/
def passTopic (tf : Option Nat) (f : Frame) : Bool :=
  match tf with
  | some t => f.topic == t
  | none => true

/-- Dedup-window insertion: evict the oldest entry when the window already
holds 2048 pairs, then push the new pair at the back. -/
def dedupPush (seen : List (List Nat × Nat)) (p : List Nat × Nat) :
    List (List Nat × Nat) :=
  (if 2048 ≤ seen.length then seen.drop 1 else seen) ++ [p]

/-- The payload rx_loop works with: the raw frame payload when no key is
configured, otherwise the result of `crypto::decrypt`. -/
def decPayload (key : Option (List Nat)) (f : Frame) : Option (List Nat) :=
  match key with
  | none => some f.payload
  | some k => decrypt k f.msg_id f.seq f.payload

/-- The relay decision at the bottom of rx_loop: when relaying is enabled
and `ttl > 0`, the frame is rebroadcast with `ttl` decremented. -/
def relayDecision (rl : Bool) (f : Frame) : Option Frame :=
  if rl ∧ 0 < f.ttl then some { f with ttl := f.ttl - 1 } else none

/-- Reconstruction of the message bytes on completion: concatenate the
payloads for `seq = 0 .. tot-1`, skipping (contributing nothing for) any
missing index, exactly as rx_loop's `for i in 0..entry.0` loop does. -/
def assembleBytes (tot : Nat) (m : List (Nat × List Nat)) : List Nat :=
  ((List.range tot).map (fun i => (alookup m i).getD [])).flatten

/-- One iteration of rx_loop on a decoded frame: topic filter, dedup check,
dedup insertion, optional decryption, reassembly insertion, delivery on
completion (`entry.1.len() as u8 == entry.0`), relay decision.  Returns the
new state, the frame handed to `do_relay` (if any), and the delivered
`(topic, msg_id, bytes)` (if any); rx_loop converts the delivered bytes to
text with `from_utf8_lossy`, which is outside this byte-level model. -/
def rxStep (key : Option (List Nat)) (tf : Option Nat) (rl : Bool)
    (st : RxState) (f : Frame) :
    RxState × Option Frame × Option (Nat × List Nat × List Nat) :=
  if passTopic tf f then
    if (f.msg_id, f.seq) ∈ st.seen then (st, none, none)
    else
      let seen2 := dedupPush st.seen (f.msg_id, f.seq)
      match decPayload key f with
      | none => ({ st with seen := seen2 }, none, none)
      | some pl =>
        let e := (alookup st.reasm f.msg_id).getD (f.tot, [], f.topic)
        let m2 := ainsert e.2.1 f.seq pl
        if m2.length % 256 = e.1 then
          (⟨seen2, aremove st.reasm f.msg_id⟩, relayDecision rl f,
            some (e.2.2, f.msg_id, assembleBytes e.1 m2))
        else
          (⟨seen2, ainsert st.reasm f.msg_id (e.1, m2, e.2.2)⟩,
            relayDecision rl f, none)
  else (st, none, none)

/-- rx_loop over a list of decoded frames, accumulating the relayed frames
and the delivered messages in order. -/
def rxRun (key : Option (List Nat)) (tf : Option Nat) (rl : Bool) :
    RxState → List Frame →
    RxState × List Frame × List (Nat × List Nat × List Nat)
  | st, [] => (st, [], [])
  | st, f :: rest =>
      let s := rxStep key tf rl st f
      let r := rxRun key tf rl s.1 rest
      (r.1, s.2.1.toList ++ r.2.1, s.2.2.toList ++ r.2.2)

/-- The relay backoff in rx_loop: `100 + gen_range(0..400)` milliseconds,
as a function of the random draw `r < 400`. -/
def relayBackoff (r : Nat) : Nat := 100 + r

/-- The frames rx_loop would see for one message: `chunk_message` output
wrapped with the sender's topic, ttl and msg_id (the `tx` loop's `Frame`
construction, pre-encryption). -/
def fragsOf (topic ttl : Nat) (mid : List Nat) (b : List Nat) : List Frame :=
  (chunk_message b).map (fun x => ⟨topic, ttl, mid, x.1, x.2.1, x.2.2⟩)

/-- The frames the `tx` send path actually packs and advertises: each chunk
is encrypted when a key is configured (main.rs lines 242-256). -/
def txFrames (key : Option (List Nat)) (topic ttl : Nat) (mid : List Nat)
    (msg : List Nat) : List Frame :=
  (chunk_message msg).map (fun x =>
    ⟨topic, ttl, mid, x.1, x.2.1,
      match key with
      | none => x.2.2
      | some k => encrypt k mid x.1 x.2.2⟩)

/-! ## Helper lemmas -/

lemma list_len4 {l : List Nat} (h : l.length = 4) : ∃ a b c d, l = [a, b, c, d] := by
  match l, h with
  | [a, b, c, d], _ => exact ⟨a, b, c, d, rfl⟩

lemma pack_frame_length (f : Frame) (hm : f.msg_id.length = 4) :
    (pack_frame f).length = 11 + f.payload.length := by
  simp [pack_frame, hm]; omega

lemma parseAt_none_iff (md : List Nat) (i : Nat) :
    parseAt md i = none ↔ md.length < i + 9 ∨ md.getD i 0 ≠ VER := by
  constructor
  · intro h
    unfold parseAt at h
    split_ifs at h with h1 h2
    · left; omega
    · right; exact h2
  · intro h
    unfold parseAt
    split_ifs with h1 h2
    · rfl
    · rfl
    · exfalso
      rcases h with h | h
      · omega
      · exact h (not_not.mp h2)

/-! ## C5: pack/unpack round trip -/

/-- C5: for every valid Frame (fields within the Rust `u8`/`[u8;4]` types),
`unpack_frame (pack_frame f)` returns `f` field for field, and the packed
frame has length `11 + len(payload)`. -/
theorem pack_unpack_roundtrip (f : Frame) (hf : f.wf) :
    unpack_frame (pack_frame f) = some f ∧
    (pack_frame f).length = 11 + f.payload.length := by
  refine ⟨?_, pack_frame_length f hf.2.2.1⟩
  obtain ⟨t, tl, ms, s, tt, pl⟩ := f
  obtain ⟨a, b, c, d, rfl⟩ := list_len4 hf.2.2.1
  have hpk : pack_frame ⟨t, tl, [a, b, c, d], s, tt, pl⟩ =
      255 :: 255 :: 1 :: t :: tl :: a :: b :: c :: d :: s :: tt :: pl := rfl
  rw [hpk]
  have h0 : (255 :: 255 :: 1 :: t :: tl :: a :: b :: c :: d :: s :: tt :: pl).getD 0 0 = 255 := by
    simp [List.getD]
  have h1 : (255 :: 255 :: 1 :: t :: tl :: a :: b :: c :: d :: s :: tt :: pl).getD 1 0 = 255 := by
    simp [List.getD]
  have hlen : (255 :: 255 :: 1 :: t :: tl :: a :: b :: c :: d :: s :: tt :: pl).length
      = pl.length + 11 := by
    simp only [List.length_cons]
  rw [unpack_frame, if_pos]
  case hc =>
    refine ⟨by rw [hlen]; omega, by rw [h0, h1]; norm_num [COMPANY_ID]⟩
  rw [parseAt, if_neg (by rw [hlen]; omega), if_neg (by simp [VER, List.getD])]
  have hmsg : ((255 :: 255 :: 1 :: t :: tl :: a :: b :: c :: d :: s :: tt :: pl).drop (2 + 3)).take 4
      = [a, b, c, d] := by simp
  refine congrArg some ?_
  refine Frame.mk.injEq .. |>.mpr ?_
  refine ⟨by simp [List.getD], by simp [List.getD], hmsg, by simp [List.getD],
    by simp [List.getD], by simp⟩

/-- C5 witness at a concrete frame. -/
theorem pack_unpack_roundtrip_witness :
    unpack_frame (pack_frame ⟨7, 3, [1, 2, 3, 4], 0, 2, [5, 6, 7]⟩) =
      some ⟨7, 3, [1, 2, 3, 4], 0, 2, [5, 6, 7]⟩ ∧
    (pack_frame ⟨7, 3, [1, 2, 3, 4], 0, 2, [5, 6, 7]⟩).length = 11 + 3 :=
  pack_unpack_roundtrip ⟨7, 3, [1, 2, 3, 4], 0, 2, [5, 6, 7]⟩ (by decide)

/-! ## C6: dual-mode tolerant parsing -/

/-- C6: `unpack_frame` consumes the 2-byte transport tag when the buffer
starts with it (decoding then starts at offset 2) and otherwise decodes from
offset 0; in both modes it returns `none` — rather than an error — exactly
when the buffer is shorter than the fixed header length for that mode or the
version byte differs from `VER`. -/
theorem unpack_dual_mode (md : List Nat) (hb : ∀ x ∈ md, x < 256) :
    ((2 ≤ md.length ∧ md.getD 0 0 = 255 ∧ md.getD 1 0 = 255) →
        unpack_frame md = parseAt md 2 ∧
          (unpack_frame md = none ↔ md.length < 11 ∨ md.getD 2 0 ≠ VER)) ∧
    (¬(2 ≤ md.length ∧ md.getD 0 0 = 255 ∧ md.getD 1 0 = 255) →
        unpack_frame md = parseAt md 0 ∧
          (unpack_frame md = none ↔ md.length < 9 ∨ md.getD 0 0 ≠ VER)) := by
  have hcond : (2 ≤ md.length ∧ md.getD 0 0 + 256 * md.getD 1 0 = COMPANY_ID) ↔
      (2 ≤ md.length ∧ md.getD 0 0 = 255 ∧ md.getD 1 0 = 255) := by
    constructor
    · rintro ⟨h2, heq⟩
      have h0 : md.getD 0 0 < 256 := by
        have h := List.getD_eq_getElem md 0 (n := 0) (by omega)
        rw [h]; exact hb _ (List.getElem_mem _)
      have h1 : md.getD 1 0 < 256 := by
        have h := List.getD_eq_getElem md 0 (n := 1) (by omega)
        rw [h]; exact hb _ (List.getElem_mem _)
      unfold COMPANY_ID at heq
      exact ⟨h2, by omega, by omega⟩
    · rintro ⟨h2, h0, h1⟩
      refine ⟨h2, by rw [h0, h1]; rfl⟩
  constructor
  · intro ht
    have : unpack_frame md = parseAt md 2 := by
      unfold unpack_frame
      rw [if_pos (hcond.mpr ht)]
    refine ⟨this, ?_⟩
    rw [this]
    exact parseAt_none_iff md 2
  · intro ht
    have : unpack_frame md = parseAt md 0 := by
      unfold unpack_frame
      rw [if_neg (fun hh => ht (hcond.mp hh))]
    refine ⟨this, ?_⟩
    rw [this]
    exact parseAt_none_iff md 0

/-- C6 witness: a tagged buffer with a bad version byte is rejected, an
untagged 9-byte buffer with the right version byte is accepted. -/
theorem unpack_dual_mode_witness :
    (unpack_frame [255, 255, 9, 0, 0, 0, 0, 0, 0, 0, 0] = none ↔
      ([255, 255, 9, 0, 0, 0, 0, 0, 0, 0, (0 : Nat)] : List Nat).length < 11 ∨
        ([255, 255, 9, 0, 0, 0, 0, 0, 0, 0, (0 : Nat)] : List Nat).getD 2 0 ≠ VER) ∧
    (unpack_frame [1, 7, 3, 1, 2, 3, 4, 0, 1] = none ↔
      ([1, 7, 3, 1, 2, 3, 4, 0, (1 : Nat)] : List Nat).length < 9 ∨
        ([1, 7, 3, 1, 2, 3, 4, 0, (1 : Nat)] : List Nat).getD 0 0 ≠ VER) :=
  ⟨((unpack_dual_mode [255, 255, 9, 0, 0, 0, 0, 0, 0, 0, 0] (by decide)).1 (by decide)).2,
   ((unpack_dual_mode [1, 7, 3, 1, 2, 3, 4, 0, 1] (by decide)).2 (by decide)).2⟩

/-! ## C3: fragmentation -/

/-- The fragment count `chunk_message` computes before the `as u8` cast:
`ceil(len / MAX_PAYLOAD)` with a minimum of 1. -/
def totOf (len : Nat) : Nat := max ((len + MAX_PAYLOAD - 1) / MAX_PAYLOAD) 1

lemma totOf_le_255 {len : Nat} (h : len ≤ 5100) : totOf len ≤ 255 := by
  have hd : (len + MAX_PAYLOAD - 1) / MAX_PAYLOAD ≤ 255 := by
    have := Nat.div_le_div_right (c := 20) (show len + MAX_PAYLOAD - 1 ≤ 5119 by
      unfold MAX_PAYLOAD; omega)
    simpa [MAX_PAYLOAD] using this
  simp only [totOf, max_le_iff]
  omega

lemma totOf_pos (len : Nat) : 1 ≤ totOf len := le_max_right _ _

lemma chunk_message_eq {b : List Nat} (h : b.length ≤ 5100) :
    chunk_message b = (List.range (totOf b.length)).map
      (fun i => (i, totOf b.length, (b.drop (i * MAX_PAYLOAD)).take MAX_PAYLOAD)) := by
  have hm : (max ((b.length + MAX_PAYLOAD - 1) / MAX_PAYLOAD) 1) % 256 = totOf b.length := by
    have h1 := totOf_le_255 h
    unfold totOf at h1 ⊢
    exact Nat.mod_eq_of_lt (by omega)
  simp only [chunk_message]
  rw [hm]

/-- Message bytes are covered by `totOf` chunks of `MAX_PAYLOAD` bytes. -/
lemma totOf_covers (len : Nat) : len ≤ totOf len * MAX_PAYLOAD := by
  unfold totOf MAX_PAYLOAD
  rcases Nat.eq_zero_or_pos len with h | h
  · omega
  · have hdm := Nat.div_add_mod (len + 20 - 1) 20
    have hlt : (len + 20 - 1) % 20 < 20 := Nat.mod_lt _ (by omega)
    have hmax : max ((len + 20 - 1) / 20) 1 = (len + 20 - 1) / 20 := by
      rcases Nat.lt_or_ge len 2 with h2 | h2
      · interval_cases len
        · simp
      · have : 1 ≤ (len + 20 - 1) / 20 := by
          apply Nat.one_le_div_iff (by omega) |>.mpr; omega
        omega
    rw [hmax]; omega

/-- C3 (amended): for every byte sequence of at most 5100 bytes (so that the
true fragment count fits in the `u8` total field), `chunk_message` emits
exactly `totOf len` fragments, with seq values `0, 1, ..., tot-1` in order,
every fragment carrying `tot = totOf len`, and every payload of length at
most `MAX_PAYLOAD`; `totOf` is `ceil(len / MAX_PAYLOAD)` with minimum 1. -/
theorem chunking_correct (b : List Nat) (h : b.length ≤ 5100) :
    (chunk_message b).length = totOf b.length ∧
    (chunk_message b).map (fun x => x.1) = List.range (totOf b.length) ∧
    (∀ x ∈ chunk_message b, x.2.1 = totOf b.length ∧ x.2.2.length ≤ MAX_PAYLOAD) ∧
    totOf b.length = max ((b.length + MAX_PAYLOAD - 1) / MAX_PAYLOAD) 1 := by
  rw [chunk_message_eq h]
  refine ⟨by simp, by rw [List.map_map]; exact List.map_id'' (fun x => rfl) _, ?_, rfl⟩
  intro x hx
  obtain ⟨i, hi, rfl⟩ := List.mem_map.mp hx
  exact ⟨rfl, by simpa using List.length_take_le _ _⟩

/-- C3 witness at a 45-byte message: 3 fragments of lengths 20/20/5. -/
theorem chunking_correct_witness :
    (List.range 45).length ≤ 5100 ∧
    (chunk_message (List.range 45)).length = totOf (List.range 45).length :=
  ⟨by simp, (chunking_correct (List.range 45) (by simp)).1⟩

/-- C3 counterexample: at 5101 bytes the true fragment count is 256, but the
`as u8` cast wraps it to 0 and `chunk_message` returns no fragments at all,
refuting the claim for unrestricted input lengths. -/
theorem chunking_overflow_cex :
    chunk_message (List.replicate 5101 0) = [] ∧
    max (((List.replicate 5101 (0 : Nat)).length + MAX_PAYLOAD - 1) / MAX_PAYLOAD) 1 = 256 := by
  have hl : (List.replicate 5101 (0 : Nat)).length = 5101 := List.length_replicate 5101 0
  constructor
  · unfold chunk_message
    rw [hl]
    norm_num [MAX_PAYLOAD]
  · rw [hl]
    norm_num [MAX_PAYLOAD]

/-! ## rxStep lemmas -/

lemma relayDecision_none_of_ttl {f : Frame} (h : f.ttl = 0) (rl : Bool) :
    relayDecision rl f = none := by
  simp [relayDecision, h]

lemma relayDecision_eq_some {rl : Bool} {f g : Frame}
    (h : relayDecision rl f = some g) :
    g = { f with ttl := f.ttl - 1 } ∧ 0 < f.ttl := by
  unfold relayDecision at h
  split_ifs at h with hc
  · cases h
    exact ⟨rfl, hc.2⟩

lemma rxStep_noop_of_filter (key : Option (List Nat)) (tf : Option Nat) (rl : Bool)
    (st : RxState) (f : Frame) (h : passTopic tf f = false) :
    rxStep key tf rl st f = (st, none, none) := by
  unfold rxStep
  simp [h]

lemma rxStep_noop_of_seen (key : Option (List Nat)) (tf : Option Nat) (rl : Bool)
    (st : RxState) (f : Frame) (h : (f.msg_id, f.seq) ∈ st.seen) :
    rxStep key tf rl st f = (st, none, none) := by
  unfold rxStep
  cases hp : passTopic tf f
  · simp
  · simp [h]

lemma rxStep_seen_of_fresh {key tf rl st} {f : Frame}
    (hp : passTopic tf f = true) (hs : (f.msg_id, f.seq) ∉ st.seen) :
    ((rxStep key tf rl st f).1).seen = dedupPush st.seen (f.msg_id, f.seq) := by
  unfold rxStep
  simp only [hp, if_true, hs, if_false]
  cases hd : decPayload key f
  · simp [hd]
  · simp only [hd]
    split_ifs <;> rfl

lemma mem_dedupPush (seen : List (List Nat × Nat)) (p : List Nat × Nat) :
    p ∈ dedupPush seen p := by
  unfold dedupPush
  exact List.mem_append_right _ (List.mem_singleton.mpr rfl)

lemma rxStep_relay_comes_from_relayDecision {key tf rl st} {f g : Frame}
    (h : (rxStep key tf rl st f).2.1 = some g) :
    relayDecision rl f = some g := by
  unfold rxStep at h
  cases hp : passTopic tf f <;> simp only [hp] at h
  · simp at h
  · by_cases hs : (f.msg_id, f.seq) ∈ st.seen
    · simp [hs] at h
    · simp only [hs, if_true, if_false] at h
      cases hd : decPayload key f <;> simp only [hd] at h
      · simp at h
      · split_ifs at h <;> simpa using h

/-! ## C8: ttl handling and relay jitter -/

/-- C8: a fragment with `ttl = 0` is processed exactly as on a non-relaying
node (dedup insertion and reassembly proceed, delivery included) and is never
scheduled for relay; every relayed frame has `ttl` decremented by exactly 1
with payload and all other fields unchanged; and the relay backoff
`100 + r` for a uniform draw `r < 400` ranges exactly over [100, 500). -/
theorem ttl_zero_and_relay_decrement :
    (∀ key tf rl st (f : Frame), f.ttl = 0 →
        rxStep key tf rl st f = rxStep key tf false st f ∧
        (rxStep key tf rl st f).2.1 = none) ∧
    (∀ key tf rl st (f g : Frame), (rxStep key tf rl st f).2.1 = some g →
        g.ttl + 1 = f.ttl ∧ g.payload = f.payload ∧ g.topic = f.topic ∧
        g.msg_id = f.msg_id ∧ g.seq = f.seq ∧ g.tot = f.tot) ∧
    (∀ r, r < 400 → 100 ≤ relayBackoff r ∧ relayBackoff r < 500) ∧
    (∀ d, (100 ≤ d ∧ d < 500) ↔ ∃ r, r < 400 ∧ relayBackoff r = d) := by
  refine ⟨?_, ?_, ?_, ?_⟩
  · intro key tf rl st f h
    have h1 : relayDecision rl f = none := relayDecision_none_of_ttl h rl
    have h2 : relayDecision false f = none := relayDecision_none_of_ttl h false
    constructor
    · unfold rxStep
      rw [h1, h2]
    · cases hr : (rxStep key tf rl st f).2.1 with
      | none => rfl
      | some g =>
          have := rxStep_relay_comes_from_relayDecision hr
          rw [h1] at this
          cases this
  · intro key tf rl st f g h
    obtain ⟨rfl, ht⟩ := relayDecision_eq_some (rxStep_relay_comes_from_relayDecision h)
    refine ⟨by simp; omega, rfl, rfl, rfl, rfl, rfl⟩
  · intro r hr
    unfold relayBackoff
    omega
  · intro d
    constructor
    · rintro ⟨h1, h2⟩
      exact ⟨d - 100, by omega, by unfold relayBackoff; omega⟩
    · rintro ⟨r, hr, rfl⟩
      unfold relayBackoff
      omega

/-- C8 witness: a concrete ttl-0 fragment is processed identically with and
without relaying enabled, and a concrete backoff draw lands in [100, 500). -/
theorem ttl_zero_and_relay_decrement_witness :
    rxStep none none true initState ⟨7, 0, [1, 2, 3, 4], 0, 2, [5]⟩ =
      rxStep none none false initState ⟨7, 0, [1, 2, 3, 4], 0, 2, [5]⟩ ∧
    (100 ≤ relayBackoff 399 ∧ relayBackoff 399 < 500) :=
  ⟨(ttl_zero_and_relay_decrement.1 none none true initState ⟨7, 0, [1, 2, 3, 4], 0, 2, [5]⟩ rfl).1,
   ttl_zero_and_relay_decrement.2.2.1 399 (by norm_num)⟩

/-! ## C7: dedup idempotence and window bound -/

/-- C7: processing the same fragment twice in a row is identical to
processing it once (so the duplicate contributes nothing to reassembly and
schedules no second relay); the dedup window never grows past 2048 pairs;
and once at capacity the insertion evicts the oldest (front) pair. -/
theorem dedup_idempotent_and_bounded :
    (∀ key tf rl st (f : Frame), rxRun key tf rl st [f, f] = rxRun key tf rl st [f]) ∧
    (∀ key tf rl st (f : Frame), st.seen.length ≤ 2048 →
        ((rxStep key tf rl st f).1).seen.length ≤ 2048) ∧
    (∀ key tf rl st (f : Frame), 2048 ≤ st.seen.length → passTopic tf f = true →
        (f.msg_id, f.seq) ∉ st.seen →
        ((rxStep key tf rl st f).1).seen = st.seen.drop 1 ++ [(f.msg_id, f.seq)]) := by
  refine ⟨?_, ?_, ?_⟩
  · intro key tf rl st f
    cases hp : passTopic tf f with
    | false =>
        have h1 := rxStep_noop_of_filter key tf rl st f hp
        simp [rxRun, h1]
    | true =>
        by_cases hs : (f.msg_id, f.seq) ∈ st.seen
        · have h1 := rxStep_noop_of_seen key tf rl st f hs
          simp [rxRun, h1]
        · have hmem : (f.msg_id, f.seq) ∈ ((rxStep key tf rl st f).1).seen := by
            rw [rxStep_seen_of_fresh hp hs]
            exact mem_dedupPush _ _
          have h2 := rxStep_noop_of_seen key tf rl (rxStep key tf rl st f).1 f hmem
          simp [rxRun, h2]
  · intro key tf rl st f h
    cases hp : passTopic tf f with
    | false => rw [rxStep_noop_of_filter key tf rl st f hp]; exact h
    | true =>
        by_cases hs : (f.msg_id, f.seq) ∈ st.seen
        · rw [rxStep_noop_of_seen key tf rl st f hs]; exact h
        · rw [rxStep_seen_of_fresh hp hs]
          unfold dedupPush
          rw [List.length_append]
          split_ifs with hc
          · rw [List.length_drop]
            simp
            omega
          · simp
            omega
  · intro key tf rl st f hcap hp hs
    rw [rxStep_seen_of_fresh hp hs]
    unfold dedupPush
    rw [if_pos hcap]

/-- C7 witness: concrete duplicate delivery and a concrete full window. -/
theorem dedup_idempotent_and_bounded_witness :
    rxRun none none true initState
        [⟨7, 3, [1, 2, 3, 4], 0, 2, [5]⟩, ⟨7, 3, [1, 2, 3, 4], 0, 2, [5]⟩] =
      rxRun none none true initState [⟨7, 3, [1, 2, 3, 4], 0, 2, [5]⟩] ∧
    ((rxStep none none true ⟨List.replicate 2048 ([0, 0, 0, 0], 0), []⟩
        ⟨7, 3, [1, 2, 3, 4], 0, 2, [5]⟩).1).seen =
      (List.replicate 2048 ([0, 0, 0, 0], 0)).drop 1 ++ [([1, 2, 3, 4], 0)] :=
  ⟨dedup_idempotent_and_bounded.1 none none true initState ⟨7, 3, [1, 2, 3, 4], 0, 2, [5]⟩,
   dedup_idempotent_and_bounded.2.2 none none true ⟨List.replicate 2048 ([0, 0, 0, 0], 0), []⟩
     ⟨7, 3, [1, 2, 3, 4], 0, 2, [5]⟩ (by simp) rfl
     (by intro h
         have h2 := List.eq_of_mem_replicate h
         simp at h2)⟩

/-! ## C10: dedup insertion precedes decryption -/

/-- C10: with a key configured, a fresh fragment whose decryption fails
still gets its `(msg_id, seq)` pair inserted into the dedup window (and
nothing else happens: no reassembly contribution, no relay, no delivery);
any retransmission whose pair is already in the window is dropped at the
dedup check with no state change at all, for every key configuration. -/
theorem dedup_insert_before_decrypt :
    (∀ k tf rl st (f : Frame), passTopic tf f = true →
        (f.msg_id, f.seq) ∉ st.seen →
        decrypt k f.msg_id f.seq f.payload = none →
        rxStep (some k) tf rl st f =
          ({ st with seen := dedupPush st.seen (f.msg_id, f.seq) }, none, none) ∧
        (f.msg_id, f.seq) ∈ ((rxStep (some k) tf rl st f).1).seen) ∧
    (∀ key tf rl st (f : Frame), (f.msg_id, f.seq) ∈ st.seen →
        rxStep key tf rl st f = (st, none, none)) := by
  constructor
  · intro k tf rl st f hp hs hd
    have hstep : rxStep (some k) tf rl st f =
        ({ st with seen := dedupPush st.seen (f.msg_id, f.seq) }, none, none) := by
      unfold rxStep
      have hdp : decPayload (some k) f = none := by simp [decPayload, hd]
      simp [hp, hs, hdp]
    refine ⟨hstep, ?_⟩
    rw [hstep]
    exact mem_dedupPush _ _
  · intro key tf rl st f h
    exact rxStep_noop_of_seen key tf rl st f h

/-- C10 witness: a concrete undecryptable fragment (empty payload cannot
carry the 16-byte tag) occupies a dedup slot; its retransmission is a
no-op. -/
theorem dedup_insert_before_decrypt_witness :
    rxStep (some (List.replicate 32 0)) none true initState ⟨7, 3, [1, 2, 3, 4], 0, 1, []⟩ =
      ({ initState with seen := dedupPush initState.seen ([1, 2, 3, 4], 0) }, none, none) ∧
    rxStep (some (List.replicate 32 0)) none true ⟨[([1, 2, 3, 4], 0)], []⟩
        ⟨7, 3, [1, 2, 3, 4], 0, 1, []⟩ =
      (⟨[([1, 2, 3, 4], 0)], []⟩, none, none) :=
  ⟨(dedup_insert_before_decrypt.1 (List.replicate 32 0) none true initState
      ⟨7, 3, [1, 2, 3, 4], 0, 1, []⟩ rfl (by simp [initState]) rfl).1,
   dedup_insert_before_decrypt.2 (some (List.replicate 32 0)) none true
      ⟨[([1, 2, 3, 4], 0)], []⟩ ⟨7, 3, [1, 2, 3, 4], 0, 1, []⟩ (by simp)⟩

/-! ## C1: relay is NOT independent of decryption (corrected) -/

/-- C1 counterexample: with a key configured and relay enabled, a fragment
that passes the topic filter and the dedup check and has `ttl = 3 > 0` but
whose payload fails to decrypt is NOT scheduled for relay — the `continue`
on decrypt failure skips the relay code. -/
theorem relay_decrypt_failure_cex :
    (rxStep (some (List.replicate 32 0)) none true initState
        ⟨7, 3, [1, 2, 3, 4], 0, 1, []⟩).2.1 = none ∧
    passTopic none ⟨7, 3, [1, 2, 3, 4], 0, 1, []⟩ = true ∧
    (([1, 2, 3, 4], 0) ∉ initState.seen) ∧
    0 < (3 : Nat) ∧
    decrypt (List.replicate 32 0) [1, 2, 3, 4] 0 [] = none := by
  exact ⟨rfl, rfl, by simp [initState], by norm_num, rfl⟩

/-- C1 (amended): on the receive path with relay enabled, a fragment that
passes the topic filter and the dedup check and has `ttl > 0` is scheduled
for relay exactly when its payload survives the decrypt stage (always, when
no key is configured — so a keyless node does relay messages it cannot
decrypt), and this is independent of the reassembly state; with a key
configured, a fragment whose decryption fails is never relayed. -/
theorem relay_requires_decrypt :
    (∀ key tf st (f : Frame) pl, passTopic tf f = true →
        (f.msg_id, f.seq) ∉ st.seen → decPayload key f = some pl → 0 < f.ttl →
        (rxStep key tf true st f).2.1 = some { f with ttl := f.ttl - 1 }) ∧
    (∀ k tf st (f : Frame), passTopic tf f = true →
        (f.msg_id, f.seq) ∉ st.seen →
        decrypt k f.msg_id f.seq f.payload = none →
        (rxStep (some k) tf true st f).2.1 = none) := by
  constructor
  · intro key tf st f pl hp hs hd ht
    unfold rxStep
    simp only [hp, if_true, hs, if_false, hd]
    have hr : relayDecision true f = some { f with ttl := f.ttl - 1 } := by
      simp [relayDecision, ht]
    split_ifs <;> simp [hr]
  · intro k tf st f hp hs hd
    have hdp : decPayload (some k) f = none := by simp [decPayload, hd]
    unfold rxStep
    simp [hp, hs, hdp]

/-- C1 amended witness: a keyless node relays a fresh ttl-3 fragment. -/
theorem relay_requires_decrypt_witness :
    (rxStep none none true initState ⟨7, 3, [1, 2, 3, 4], 0, 2, [5]⟩).2.1 =
      some ⟨7, 2, [1, 2, 3, 4], 0, 2, [5]⟩ :=
  relay_requires_decrypt.1 none none initState ⟨7, 3, [1, 2, 3, 4], 0, 2, [5]⟩ [5]
    rfl (by simp [initState]) rfl (by norm_num)

/-! ## C9: encrypt/decrypt mutual inverse, nonce determinism -/

lemma keystream_length (key nonce : List Nat) (n : Nat) :
    (keystream key nonce n).length = n := by
  simp [keystream]

lemma poly1305_length (msg otk : List Nat) : (poly1305 msg otk).length = 16 := by
  simp [poly1305, toLEBytes]

lemma xor_unmask : ∀ (p ks : List Nat), p.length = ks.length →
    List.zipWith (fun a b => a ^^^ b) (List.zipWith (fun a b => a ^^^ b) p ks) ks = p := by
  intro p
  induction p with
  | nil => intro ks h; simp
  | cons a p ih =>
      intro ks h
      cases ks with
      | nil => simp at h
      | cons b ks =>
          simp only [List.zipWith]
          rw [Nat.xor_assoc, Nat.xor_self, Nat.xor_zero]
          rw [ih ks (by simpa using h)]

lemma aead_roundtrip (key nonce p : List Nat) :
    aeadDecrypt key nonce (aeadEncrypt key nonce p) = some p := by
  have hksl : (keystream key nonce p.length).length = p.length := keystream_length _ _ _
  set ks := keystream key nonce p.length with hks
  set ct := List.zipWith (fun a b => a ^^^ b) p ks with hct
  have hctl : ct.length = p.length := by
    rw [hct, List.length_zipWith, hksl]
    exact min_self _
  set tag := poly1305 (macData ct) (otkOf key nonce) with htag
  have htagl : tag.length = 16 := poly1305_length _ _
  have henc : aeadEncrypt key nonce p = ct ++ tag := rfl
  rw [henc]
  have hlen : (ct ++ tag).length = p.length + 16 := by
    rw [List.length_append, hctl, htagl]
  unfold aeadDecrypt
  rw [hlen, if_neg (by omega)]
  have hsub : p.length + 16 - 16 = ct.length := by omega
  rw [hsub, List.take_left, List.drop_left]
  show (if poly1305 (macData ct) (otkOf key nonce) = tag then
      some (List.zipWith (fun a b => a ^^^ b) ct (keystream key nonce ct.length))
    else none) = some p
  rw [if_pos htag.symm, hctl, ← hks]
  exact congrArg some (xor_unmask p ks hksl.symm)

/-- C9: `encrypt` and `decrypt` with the same `(key, msg_id, seq)` are
mutually inverse; the 12-byte nonce they share is the 4 `msg_id` bytes, then
`seq`, then 7 zero bytes; and the map `(msg_id, seq) ↦ nonce` is injective
on 4-byte ids, so distinct `(msg_id, seq)` pairs under one key never reuse
a nonce. -/
theorem encrypt_decrypt_inverse (key mid : List Nat) (seq : Nat) (p : List Nat)
    (hm : mid.length = 4) :
    decrypt key mid seq (encrypt key mid seq p) = some p ∧
    nonceOf mid seq = mid ++ seq :: List.replicate 7 0 ∧
    (∀ mid' seq', mid'.length = 4 → nonceOf mid seq = nonceOf mid' seq' →
        mid = mid' ∧ seq = seq') := by
  have hshape : ∀ (l : List Nat) (s : Nat), l.length = 4 →
      nonceOf l s = l ++ s :: List.replicate 7 0 := by
    intro l s hl
    obtain ⟨a, b, c, d, rfl⟩ := list_len4 hl
    rfl
  refine ⟨aead_roundtrip _ _ _, hshape mid seq hm, ?_⟩
  intro mid' seq' hm' h
  rw [hshape mid seq hm, hshape mid' seq' hm'] at h
  obtain ⟨h1, h2⟩ := List.append_inj h (by rw [hm, hm'])
  exact ⟨h1, by injection h2⟩

/-- C9 witness at a concrete key, msg_id, seq and plaintext. -/
theorem encrypt_decrypt_inverse_witness :
    decrypt (List.replicate 32 0) [1, 2, 3, 4] 5
        (encrypt (List.replicate 32 0) [1, 2, 3, 4] 5 [104, 105]) = some [104, 105] ∧
    nonceOf [1, 2, 3, 4] 5 = [1, 2, 3, 4] ++ 5 :: List.replicate 7 0 :=
  ⟨(encrypt_decrypt_inverse (List.replicate 32 0) [1, 2, 3, 4] 5 [104, 105] rfl).1,
   (encrypt_decrypt_inverse (List.replicate 32 0) [1, 2, 3, 4] 5 [104, 105] rfl).2.1⟩

/-! ## C2: outbound frame size (corrected) -/

lemma encrypt_length (key mid : List Nat) (seq : Nat) (p : List Nat) :
    (encrypt key mid seq p).length = p.length + 16 := by
  unfold encrypt aeadEncrypt
  rw [List.length_append, List.length_zipWith, keystream_length, poly1305_length]
  simp

lemma chunk_message_payload_le (b : List Nat) :
    ∀ x ∈ chunk_message b, x.2.2.length ≤ MAX_PAYLOAD := by
  intro x hx
  simp only [chunk_message] at hx
  obtain ⟨i, hi, rfl⟩ := List.mem_map.mp hx
  simpa using List.length_take_le _ _

/-- C2 (amended): every frame the send path transmits packs to at most
`11 + MAX_PAYLOAD = 31` bytes when no key is configured; with a key
configured the AEAD tag adds 16 bytes, so the bound is `11 + MAX_PAYLOAD +
16 = 47` bytes and the claimed 31-byte ceiling does not hold. -/
theorem tx_frame_size (key : Option (List Nat)) (topic ttl : Nat) (mid : List Nat)
    (msg : List Nat) (f : Frame) (hm : mid.length = 4)
    (hf : f ∈ txFrames key topic ttl mid msg) :
    (pack_frame f).length ≤ 11 + MAX_PAYLOAD + 16 ∧
    (key = none → (pack_frame f).length ≤ 11 + MAX_PAYLOAD) := by
  obtain ⟨x, hx, rfl⟩ := List.mem_map.mp hf
  have hple := chunk_message_payload_le msg x hx
  cases key with
  | none =>
      refine ⟨?_, fun _ => ?_⟩ <;>
        · rw [pack_frame_length _ hm]
          show 11 + x.2.2.length ≤ _
          unfold MAX_PAYLOAD at hple ⊢
          omega
  | some k =>
      refine ⟨?_, fun h => by cases h⟩
      rw [pack_frame_length _ hm]
      show 11 + (encrypt k mid x.1 x.2.2).length ≤ 11 + MAX_PAYLOAD + 16
      rw [encrypt_length]
      unfold MAX_PAYLOAD at hple ⊢
      omega

/-- C2 witness: a keyless single-chunk message packs to at most 31 bytes. -/
theorem tx_frame_size_witness :
    (pack_frame ⟨7, 3, [0, 0, 0, 0], 0, 1, [65]⟩).length ≤ 11 + MAX_PAYLOAD + 16 ∧
    ((none : Option (List Nat)) = none →
      (pack_frame ⟨7, 3, [0, 0, 0, 0], 0, 1, [65]⟩).length ≤ 11 + MAX_PAYLOAD) :=
  tx_frame_size none 7 3 [0, 0, 0, 0] [65] ⟨7, 3, [0, 0, 0, 0], 0, 1, [65]⟩ rfl
    (by simp [txFrames, chunk_message, MAX_PAYLOAD])

/-- C2 counterexample: with a key configured, a full 20-byte chunk encrypts
to 36 bytes and packs to a 47-byte frame, exceeding the claimed 31-byte
ceiling `11 + MAX_PAYLOAD`. -/
theorem tx_frame_size_cex :
    ((txFrames (some (List.replicate 32 0)) 7 3 [0, 0, 0, 0] (List.replicate 20 65)).map
        (fun f => (pack_frame f).length)) = [47] ∧ ¬(47 ≤ 11 + MAX_PAYLOAD) := by
  have hc : chunk_message (List.replicate 20 65) = [(0, 1, List.replicate 20 65)] := by rfl
  constructor
  · rw [txFrames, hc]
    simp only [List.map_cons, List.map_nil]
    rw [pack_frame_length _ (by rfl), encrypt_length]
    norm_num
  · norm_num [MAX_PAYLOAD]

/-! ## C4: fragmentation/reassembly identity -/

/-- The `i`-th chunk of `b`, as `chunk_message` slices it. -/
def chunkOf (b : List Nat) (i : Nat) : List Nat :=
  (b.drop (i * MAX_PAYLOAD)).take MAX_PAYLOAD

lemma alookup_ainsert_self {α β : Type} [DecidableEq α] :
    ∀ (m : List (α × β)) (k : α) (v : β), alookup (ainsert m k v) k = some v := by
  intro m k v
  induction m with
  | nil => simp [ainsert, alookup]
  | cons kv rest ih =>
      obtain ⟨a, w⟩ := kv
      by_cases h : a = k
      · subst h; simp [ainsert, alookup]
      · simp [ainsert, alookup, h, ih]

lemma alookup_ainsert_ne {α β : Type} [DecidableEq α] :
    ∀ (m : List (α × β)) (k j : α) (v : β), j ≠ k →
      alookup (ainsert m k v) j = alookup m j := by
  intro m k j v h
  induction m with
  | nil => simp [ainsert, alookup, Ne.symm h]
  | cons kv rest ih =>
      obtain ⟨a, w⟩ := kv
      by_cases ha : a = k
      · subst ha; simp [ainsert, alookup, Ne.symm h]
      · simp only [ainsert, if_neg ha]
        by_cases haj : a = j
        · subst haj; simp [alookup]
        · simp [alookup, haj, ih]

lemma ainsert_length_fresh {α β : Type} [DecidableEq α] :
    ∀ (m : List (α × β)) (k : α) (v : β), alookup m k = none →
      (ainsert m k v).length = m.length + 1 := by
  intro m k v h
  induction m with
  | nil => rfl
  | cons kv rest ih =>
      obtain ⟨a, w⟩ := kv
      by_cases ha : a = k
      · rw [alookup, if_pos ha] at h
        cases h
      · rw [alookup, if_neg ha] at h
        simp only [ainsert, if_neg ha, List.length_cons, ih h]

lemma chunks_flatten (b : List Nat) :
    ∀ k, ((List.range k).map (chunkOf b)).flatten = b.take (k * MAX_PAYLOAD) := by
  intro k
  induction k with
  | zero => simp
  | succ n ih =>
      rw [List.range_succ, List.map_append, List.flatten_append, ih, Nat.succ_mul,
        List.take_add]
      simp [chunkOf]

lemma take_totOf (b : List Nat) : b.take (totOf b.length * MAX_PAYLOAD) = b :=
  List.take_of_length_le (totOf_covers b.length)

lemma assembleBytes_eq (tot' : Nat) (m : List (Nat × List Nat)) (b : List Nat)
    (h : ∀ i, i < tot' → alookup m i = some (chunkOf b i)) :
    assembleBytes tot' m = ((List.range tot').map (chunkOf b)).flatten := by
  unfold assembleBytes
  congr 1
  apply List.map_congr_left
  intro i hi
  rw [h i (List.mem_range.mp hi)]
  rfl

lemma rxStep_eq_complete (key : Option (List Nat)) (tf : Option Nat) (rl : Bool)
    (st : RxState) (f : Frame) {pl : List Nat} {e : ReasmEntry}
    (hp : passTopic tf f = true) (hs : (f.msg_id, f.seq) ∉ st.seen)
    (hd : decPayload key f = some pl)
    (he : (alookup st.reasm f.msg_id).getD (f.tot, [], f.topic) = e)
    (hc : (ainsert e.2.1 f.seq pl).length % 256 = e.1) :
    rxStep key tf rl st f =
      (⟨dedupPush st.seen (f.msg_id, f.seq), aremove st.reasm f.msg_id⟩,
        relayDecision rl f,
        some (e.2.2, f.msg_id, assembleBytes e.1 (ainsert e.2.1 f.seq pl))) := by
  unfold rxStep
  simp [hp, hs, hd, he, hc]

lemma rxStep_eq_incomplete (key : Option (List Nat)) (tf : Option Nat) (rl : Bool)
    (st : RxState) (f : Frame) {pl : List Nat} {e : ReasmEntry}
    (hp : passTopic tf f = true) (hs : (f.msg_id, f.seq) ∉ st.seen)
    (hd : decPayload key f = some pl)
    (he : (alookup st.reasm f.msg_id).getD (f.tot, [], f.topic) = e)
    (hc : ¬ ((ainsert e.2.1 f.seq pl).length % 256 = e.1)) :
    rxStep key tf rl st f =
      (⟨dedupPush st.seen (f.msg_id, f.seq),
         ainsert st.reasm f.msg_id (e.1, ainsert e.2.1 f.seq pl, e.2.2)⟩,
        relayDecision rl f, none) := by
  unfold rxStep
  simp [hp, hs, hd, he, hc]

lemma reasm_run_main (b : List Nat) (topic ttl : Nat) (mid : List Nat) (rl : Bool) :
    ∀ (l : List Frame) (done : List Nat) (m : List (Nat × List Nat))
      (seen : List (List Nat × Nat)) (rtab : List (List Nat × ReasmEntry)),
      l ≠ [] →
      (∀ f ∈ l, f.topic = topic ∧ f.ttl = ttl ∧ f.msg_id = mid ∧
        f.tot = totOf b.length ∧ f.payload = chunkOf b f.seq) →
      (l.map Frame.seq ++ done).Perm (List.range (totOf b.length)) →
      (∀ i, alookup m i = if i ∈ done then some (chunkOf b i) else none) →
      m.length = done.length →
      (∀ f ∈ l, (mid, f.seq) ∉ seen) →
      seen.length + l.length ≤ 2048 →
      alookup rtab mid = (if done = [] then none else some (totOf b.length, m, topic)) →
      totOf b.length ≤ 255 →
      (rxRun none none rl ⟨seen, rtab⟩ l).2.2 =
        [(topic, mid, b.take (totOf b.length * MAX_PAYLOAD))] := by
  intro l
  induction l with
  | nil => intro done m seen rtab hne; exact absurd rfl hne
  | cons f l' ih =>
      intro done m seen rtab _ hl hperm hm hmlen hseen hslen hre h255
      obtain ⟨hft, hfttl, hfid, hftot, hfpay⟩ := hl f (List.mem_cons_self f l')
      have hpermc : (f.seq :: (l'.map Frame.seq ++ done)).Perm
          (List.range (totOf b.length)) := by
        simpa using hperm
      have hnd : (f.seq :: (l'.map Frame.seq ++ done)).Nodup :=
        hpermc.nodup_iff.mpr (List.nodup_range _)
      have hseqlt : f.seq < totOf b.length :=
        List.mem_range.mp (hpermc.mem_iff.mp (List.mem_cons_self _ _))
      have hseqnotin : f.seq ∉ l'.map Frame.seq ++ done := (List.nodup_cons.mp hnd).1
      have hseqdone : f.seq ∉ done := fun h => hseqnotin (List.mem_append_right _ h)
      have hseql' : f.seq ∉ l'.map Frame.seq := fun h => hseqnotin (List.mem_append_left _ h)
      have hlen : l'.length + 1 + done.length = totOf b.length := by
        have h1 := hpermc.length_eq
        simp only [List.length_cons, List.length_append, List.length_map,
          List.length_range] at h1
        omega
      have hs2 : (f.msg_id, f.seq) ∉ seen := by
        rw [hfid]
        exact hseen f (List.mem_cons_self _ _)
      have hclen : (f :: l').length = l'.length + 1 := by simp
      have hnoev : ¬ (2048 ≤ seen.length) := by omega
      have hpush : dedupPush seen (f.msg_id, f.seq) = seen ++ [(mid, f.seq)] := by
        unfold dedupPush
        rw [if_neg hnoev, hfid]
      have hdp : decPayload none f = some (chunkOf b f.seq) := by
        simp [decPayload, hfpay]
      have he : (alookup rtab f.msg_id).getD (f.tot, [], f.topic) =
          (totOf b.length, m, topic) := by
        rw [hfid, hre]
        by_cases hd0 : done = []
        · have hm0 : m = [] := List.length_eq_zero.mp (by rw [hmlen, hd0]; rfl)
          rw [if_pos hd0, hm0, hftot, hft]
          rfl
        · rw [if_neg hd0]
          rfl
      have hm2len : (ainsert m f.seq (chunkOf b f.seq)).length = done.length + 1 := by
        rw [ainsert_length_fresh m f.seq _ (by rw [hm]; exact if_neg hseqdone), hmlen]
      by_cases hl' : l' = []
      · subst hl'
        simp only [List.length_nil] at hlen
        have hdone1 : done.length + 1 = totOf b.length := by omega
        have hcomp : (ainsert ((totOf b.length, m, topic) : ReasmEntry).2.1 f.seq
            (chunkOf b f.seq)).length % 256 = ((totOf b.length, m, topic) : ReasmEntry).1 := by
          show (ainsert m f.seq (chunkOf b f.seq)).length % 256 = totOf b.length
          rw [hm2len, Nat.mod_eq_of_lt (by omega)]
          exact hdone1
        have hstep := rxStep_eq_complete none none rl ⟨seen, rtab⟩ f rfl hs2 hdp he hcomp
        have hass : assembleBytes (totOf b.length) (ainsert m f.seq (chunkOf b f.seq)) =
            b.take (totOf b.length * MAX_PAYLOAD) := by
          rw [assembleBytes_eq _ _ b ?_, chunks_flatten]
          intro i hi
          by_cases hif : i = f.seq
          · subst hif
            exact alookup_ainsert_self m f.seq _
          · rw [alookup_ainsert_ne m f.seq i _ hif, hm]
            have hid : i ∈ done := by
              have h1 : i ∈ f.seq :: ([].map Frame.seq ++ done) :=
                hpermc.mem_iff.mpr (List.mem_range.mpr hi)
              simp only [List.map_nil, List.nil_append, List.mem_cons] at h1
              rcases h1 with h1 | h1
              · exact absurd h1 hif
              · exact h1
            rw [if_pos hid]
        simp [rxRun, hstep, hass, hfid]
      · have hl'len : 1 ≤ l'.length := by
          cases l' with
          | nil => exact absurd rfl hl'
          | cons a as => simp
        have hcomp : ¬ ((ainsert ((totOf b.length, m, topic) : ReasmEntry).2.1 f.seq
            (chunkOf b f.seq)).length % 256 = ((totOf b.length, m, topic) : ReasmEntry).1) := by
          show ¬ ((ainsert m f.seq (chunkOf b f.seq)).length % 256 = totOf b.length)
          rw [hm2len, Nat.mod_eq_of_lt (by omega)]
          omega
        have hstep := rxStep_eq_incomplete none none rl ⟨seen, rtab⟩ f rfl hs2 hdp he hcomp
        rw [hpush, hfid] at hstep
        have hres := ih (f.seq :: done) (ainsert m f.seq (chunkOf b f.seq))
          (seen ++ [(mid, f.seq)])
          (ainsert rtab mid
            (totOf b.length, ainsert m f.seq (chunkOf b f.seq), topic))
          hl' (fun g hg => hl g (List.mem_cons_of_mem _ hg))
          (List.Perm.trans List.perm_middle hpermc)
          ?_ ?_ ?_ ?_ ?_ h255
        · simp only [rxRun, hstep]
          simpa using hres
        · intro i
          by_cases hif : i = f.seq
          · subst hif
            rw [alookup_ainsert_self m f.seq _, if_pos (List.mem_cons_self _ _)]
          · rw [alookup_ainsert_ne m f.seq i _ hif, hm]
            by_cases hid : i ∈ done
            · rw [if_pos hid, if_pos (List.mem_cons_of_mem _ hid)]
            · rw [if_neg hid, if_neg (by simp [hif, hid])]
        · rw [hm2len]
          simp
        · intro g hg hmem
          rcases List.mem_append.mp hmem with h | h
          · exact hseen g (List.mem_cons_of_mem _ hg) h
          · have h1 : (mid, g.seq) = (mid, f.seq) := List.mem_singleton.mp h
            have h2 : g.seq = f.seq := congrArg Prod.snd h1
            exact hseql' (h2 ▸ List.mem_map_of_mem Frame.seq hg)
        · rw [List.length_append]
          simp only [List.length_cons] at hslen ⊢
          simp
          omega
        · rw [if_neg (by simp)]
          exact alookup_ainsert_self rtab mid _

/-- C4 (amended): for every byte sequence of at most 5100 bytes (so the
fragment count fits the `u8` total field) — including the empty sequence
and lengths at or one past a chunk boundary — feeding all fragments of
`chunk_message b`, in any delivery order with duplicates removed, through
the receive loop yields exactly one delivered message whose bytes are `b`. -/
theorem frag_reassembly_identity (b : List Nat) (topic ttl : Nat) (mid : List Nat)
    (l : List Frame) (rl : Bool) (hb : b.length ≤ 5100)
    (hperm : l.Perm (fragsOf topic ttl mid b)) :
    (rxRun none none rl initState l).2.2 = [(topic, mid, b)] := by
  have h255 := totOf_le_255 hb
  have hfrags : fragsOf topic ttl mid b = (List.range (totOf b.length)).map
      (fun i => ⟨topic, ttl, mid, i, totOf b.length, chunkOf b i⟩) := by
    unfold fragsOf
    rw [chunk_message_eq hb, List.map_map]
    rfl
  have hl : ∀ f ∈ l, f.topic = topic ∧ f.ttl = ttl ∧ f.msg_id = mid ∧
      f.tot = totOf b.length ∧ f.payload = chunkOf b f.seq := by
    intro f hf
    have hmem : f ∈ fragsOf topic ttl mid b := hperm.mem_iff.mp hf
    rw [hfrags] at hmem
    obtain ⟨i, hi, rfl⟩ := List.mem_map.mp hmem
    exact ⟨rfl, rfl, rfl, rfl, rfl⟩
  have hseqperm : (l.map Frame.seq ++ []).Perm (List.range (totOf b.length)) := by
    rw [List.append_nil]
    have h1 : (l.map Frame.seq).Perm ((fragsOf topic ttl mid b).map Frame.seq) :=
      hperm.map _
    have h2 : (fragsOf topic ttl mid b).map Frame.seq = List.range (totOf b.length) := by
      rw [hfrags, List.map_map]
      exact List.map_id'' (fun x => rfl) _
    rw [h2] at h1
    exact h1
  have hllen : l.length = totOf b.length := by
    have h1 := hperm.length_eq
    rw [hfrags] at h1
    simpa using h1
  have hne : l ≠ [] := by
    intro h
    have := totOf_pos b.length
    rw [h] at hllen
    simp at hllen
    omega
  have hmain := reasm_run_main b topic ttl mid rl l [] [] [] [] hne hl hseqperm
    (by intro i; simp [alookup]) rfl (by intro f hf; simp)
    (by simp only [List.length_nil]; omega) (by simp [alookup]) h255
  rw [take_totOf] at hmain
  exact hmain

/-- C4 witness: a 25-byte message delivered as two fragments in reversed
order reassembles to the original bytes. -/
theorem frag_reassembly_identity_witness :
    (rxRun none none false initState
        [⟨7, 3, [9, 9, 9, 9], 1, 2, (List.range 25).drop 20⟩,
         ⟨7, 3, [9, 9, 9, 9], 0, 2, (List.range 25).take 20⟩]).2.2 =
      [(7, [9, 9, 9, 9], List.range 25)] := by
  have hfr : fragsOf 7 3 [9, 9, 9, 9] (List.range 25) =
      [⟨7, 3, [9, 9, 9, 9], 0, 2, (List.range 25).take 20⟩,
       ⟨7, 3, [9, 9, 9, 9], 1, 2, (List.range 25).drop 20⟩] := by rfl
  exact frag_reassembly_identity (List.range 25) 7 3 [9, 9, 9, 9] _ false (by simp)
    (by rw [hfr]; exact List.Perm.swap _ _ _)

/-- C4 counterexample: at 5101 bytes `chunk_message` emits no fragments at
all (the `as u8` wrap), so processing "all fragments" delivers no message
rather than exactly one. -/
theorem frag_reassembly_overflow_cex :
    fragsOf 7 3 [0, 0, 0, 0] (List.replicate 5101 0) = [] ∧
    (rxRun none none false initState
      (fragsOf 7 3 [0, 0, 0, 0] (List.replicate 5101 0))).2.2 = [] := by
  have hc : chunk_message (List.replicate 5101 0) = [] := by
    unfold chunk_message
    rw [List.length_replicate]
    norm_num [MAX_PAYLOAD]
  have h1 : fragsOf 7 3 [0, 0, 0, 0] (List.replicate 5101 0) = [] := by
    unfold fragsOf
    rw [hc]
    rfl
  exact ⟨h1, by rw [h1]; rfl⟩

end BleChirp
